import Mathlib

/-!
Verification of the mimic-rs expectation-matching engine.

Shallow embedding of the core of the `mimic-rs` mock HTTP server:
the path-pattern compiler, the request-matching algorithm
(`find_matching_expectation` in `src/handlers/dynamic.rs`), the expectation
registry and bounded request ledger (`MockServer` in `src/server/mod.rs`),
the conditional response generator (`src/conditional/handler.rs`) and the
response resolution step (`create_response` in `src/handlers/dynamic.rs`).

Strings are modelled as `List Char` (`Str`).  JSON values are kept abstract
as a type parameter `β` together with a `parseJson : Str → Option β`
function standing for `serde_json::from_str`.  File access is a function
`readFile : Str → Except Str Str` standing for `std::fs::read_to_string`
rooted at the server's resource directory.
-/

namespace MimicRs

/-- Strings of the model: Rust `String` / `&str` as a list of characters. -/
abbrev Str := List Char

/-! ### The path pattern compiler

`MockExpectation::compile_regex_if_needed` (src/models/expectation.rs, lines
51-58) and the inline path check of `find_matching_expectation`
(src/handlers/dynamic.rs, lines 146-158) both build the regex
`"^" ++ path.replace('*', ".*") ++ "$"` and match it against the whole
request path.  We model the fragment of the regex language these strings can
fall into: for path specifications whose characters are ordinary characters,
`'.'` or `'*'` (no other regex metacharacters, no newline), the regex built
by the code is a sequence of the four token kinds below, and `Regex::new`
succeeds on it.  `anyChar`/`anyStar` exclude `'\n'` exactly as the default
`.` of the Rust regex crate does. -/

/-- A token of the regex fragment generated by the path compiler. -/
inductive RTok where
  | lit (c : Char)
  | litStar (c : Char)
  | anyChar
  | anyStar
  deriving DecidableEq, Repr

/-- Is the token a starred one (able to match the empty string)? -/
def RTok.isStar : RTok → Bool
  | RTok.litStar _ => true
  | RTok.anyStar => true
  | _ => false

/-- The suffixes of a token list reachable by skipping leading starred tokens
(a starred token may match the empty string). -/
def starSuffixes : List RTok → List (List RTok)
  | [] => [[]]
  | t :: ts => if t.isStar then (t :: ts) :: starSuffixes ts else [t :: ts]

/-- Anchored matching semantics of a token list against a whole string,
modelling `Regex::is_match` for the `"^" ++ r ++ "$"` regexes the code
builds: the token list must consume the entire candidate path.  Written as a
step of an NFA simulation — structurally recursive on the candidate string —
so that it evaluates inside the kernel; the textbook recurrences are proved
below as theorems. -/
def tokMatch (ts : List RTok) : Str → Bool
  | [] => ts.all RTok.isStar
  | d :: ds =>
      (starSuffixes ts).any fun ts2 =>
        match ts2 with
        | [] => false
        | RTok.lit c :: rest => c == d && tokMatch rest ds
        | RTok.anyChar :: rest => (d != '\n') && tokMatch rest ds
        | RTok.litStar c :: rest => c == d && tokMatch (RTok.litStar c :: rest) ds
        | RTok.anyStar :: rest => (d != '\n') && tokMatch (RTok.anyStar :: rest) ds

/-- Rust `str::replace('*', ".*")` as performed on the path specification. -/
def replaceStar : Str → Str
  | [] => []
  | c :: rest => if c == '*' then '.' :: '*' :: replaceStar rest else c :: replaceStar rest

/-- A single regex character as an atom: `'.'` is the match-any metacharacter,
everything else (within the modelled fragment) matches itself. -/
def atomTok (c : Char) : RTok := if c == '.' then RTok.anyChar else RTok.lit c

/-- A starred regex character: `".*"` matches any characters, `"c*"` matches a
run of the character `c`. -/
def starTok (c : Char) : RTok := if c == '.' then RTok.anyStar else RTok.litStar c

/-- Parser from the generated regex string to its token sequence: a character
followed by `'*'` forms a starred atom, otherwise the character is a plain
atom.  Faithful for regex strings inside the modelled fragment. -/
def regexToToks : Str → List RTok
  | [] => []
  | [c] => [atomTok c]
  | c :: d :: rest =>
      if d == '*' then starTok c :: regexToToks rest
      else atomTok c :: regexToToks (d :: rest)

/-- The path predicate of `find_matching_expectation` (dynamic.rs, lines
146-160): if the expectation's path contains `'*'` it is turned into the
regex `"^" ++ path.replace('*', ".*") ++ "$"` and matched against the whole
request path, otherwise the paths are compared for string equality. -/
def pathCheck (spec path : Str) : Bool :=
  if spec.contains '*' then tokMatch (regexToToks (replaceStar spec)) path
  else spec == path

/-- Modelled from the spec (section 4.1): the pattern the specification
describes, in which each literal run between `'*'` tokens is escaped so that
every character of it matches only itself. -/
def specEscToks (spec : Str) : List RTok :=
  spec.map fun c => if c == '*' then RTok.anyStar else RTok.lit c

/-- Modelled from the spec (section 4.1): the whole path predicate the
specification describes — exact match without `'*'`, otherwise the escaped,
anchored pattern. -/
def pathCheckSpec (spec path : Str) : Bool :=
  if spec.contains '*' then tokMatch (specEscToks spec) path
  else spec == path

/-- The token sequence the code's compilation actually produces, character by
character: `'*'` becomes a match-any run, `'.'` stays a regex metacharacter
(match any one character) because no escaping is applied, and every other
character matches itself. -/
def directToks (spec : Str) : List RTok :=
  spec.map fun c => if c == '*' then RTok.anyStar else atomTok c

/-! ### Query string parsing (`extract_query_params`, dynamic.rs lines 70-82) -/

/-- Rust `str::split(sep)`: splits at every occurrence of `sep`; adjacent
separators and separators at either end produce empty pieces, and the empty
input yields one empty piece. -/
def splitOnChar (sep : Char) : Str → List Str
  | [] => [[]]
  | c :: rest =>
      if c == sep then [] :: splitOnChar sep rest
      else
        match splitOnChar sep rest with
        | [] => [[c]]
        | p :: ps => (c :: p) :: ps

/-- Rust `str::split_once(sep)`: splits at the first occurrence of `sep`, or
returns `none` when `sep` does not occur. -/
def splitOnce (sep : Char) : Str → Option (Str × Str)
  | [] => none
  | c :: rest =>
      if c == sep then some ([], rest)
      else (splitOnce sep rest).map fun p => (c :: p.1, p.2)

/-- The empty `HashMap<String, String>`, represented by its lookup function. -/
def emptyMap : Str → Option Str := fun _ => none

/-- `HashMap::insert`: the new binding shadows any previous binding of the
same key (the last insert wins on lookup). -/
def mapInsert (m : Str → Option Str) (k v : Str) : Str → Option Str :=
  fun k2 => if k2 == k then some v else m k2

/-- `extract_query_params` (dynamic.rs, lines 70-82): split the raw query
string on `'&'`, split each piece at its first `'='` (pieces without `'='`
are dropped), and insert each key/value pair into the map in order, later
occurrences of a key overwriting earlier ones.  No percent-decoding is
applied to keys or values. -/
def extract_query_params (query : Option Str) : Str → Option Str :=
  match query with
  | none => emptyMap
  | some q =>
      (splitOnChar '&' q).foldl
        (fun m piece =>
          match splitOnce '=' piece with
          | some kv => mapInsert m kv.1 kv.2
          | none => m)
        emptyMap

/-! ### Headers -/

/-- ASCII lowercasing of one character: what Rust's `str::to_lowercase` (and
the `HeaderName` normalization of the `http` crate) performs on the ASCII
characters header names consist of. -/
def lowerChar (c : Char) : Char :=
  if c.toNat ≥ 65 ∧ c.toNat ≤ 90 then Char.ofNat (c.toNat + 32) else c

/-- ASCII lowercasing of a string. -/
def asciiLower (s : Str) : Str := s.map lowerChar

/-- `axum::http::HeaderMap::get`: header-name lookup is case-insensitive
(stored names are normalized to lower case by the HTTP stack, and the lookup
key is normalized by the `HeaderName` conversion); the first value stored
under the name is returned. -/
def headerMapGet (hs : List (Str × Str)) (k : Str) : Option Str :=
  (hs.find? fun p => asciiLower p.1 == asciiLower k).map Prod.snd

/-- `HashMap::insert` on an association list representation: the new binding
replaces any binding of the same key. -/
def hmInsert (m : List (Str × Str)) (k v : Str) : List (Str × Str) :=
  (m.filter fun p => p.1 != k) ++ [(k, v)]

/-! ### Expectations and requests -/

/-- `MockResponse` (src/models/response.rs).  JSON bodies are abstract
(`β`).  The `cached_file_content` / `cached_json_content` slots are
populated only by `MockServer::preload_file_content`, never during dispatch
(`create_response` reads the file directly), and no dispatch code consults
`conditional_id`, so these fields are omitted. -/
structure MockResponse (β : Type) where
  status_code : Nat
  headers : List (Str × Str)
  body : Option β
  body_file : Option Str
  deriving DecidableEq

/-- `MockExpectation` (src/models/expectation.rs).  The `path_regex` field is
omitted: `find_matching_expectation` recompiles the pattern from `path` on
every call and never reads `path_regex`. -/
structure MockExpectation (β : Type) where
  id : Str
  method : Str
  path : Str
  query_params : List (Str × Str)
  headers : List (Str × Str)
  body : Option Str
  response : MockResponse β
  deriving DecidableEq

/-- The already-parsed incoming request as `handle_dynamic_request` sees it:
method, path, the query map built by `extract_query_params`, the raw header
pairs, and the optional body. -/
structure ReqDescriptor where
  method : Str
  path : Str
  query : Str → Option Str
  headers : List (Str × Str)
  body : Option Str

/-- The query-parameter predicate of `find_matching_expectation` (dynamic.rs,
lines 162-177): every required key must be present in the request's query map
with an identical value. -/
def queryCheck (required : List (Str × Str)) (q : Str → Option Str) : Bool :=
  required.all fun kv => q kv.1 == some kv.2

/-- The header predicate of `find_matching_expectation` (dynamic.rs, lines
179-199): every required header name must be present in the request's header
map (case-insensitive name lookup) with an identical value. -/
def headerCheck (required : List (Str × Str)) (hs : List (Str × Str)) : Bool :=
  required.all fun kv => headerMapGet hs kv.1 == some kv.2

/-- The body predicate of `find_matching_expectation` (dynamic.rs, lines
201-210): when a body is required the request body must be present and equal
to it; otherwise any body is accepted. -/
def bodyCheck (required reqBody : Option Str) : Bool :=
  match required with
  | none => true
  | some eb =>
      match reqBody with
      | some rb => eb == rb
      | none => false

/-- One candidate passes all five checks of the `find_matching_expectation`
loop body (dynamic.rs, lines 140-213), in source order: method, path, query
parameters, headers, body. -/
def satisfies {β : Type} (e : MockExpectation β) (r : ReqDescriptor) : Bool :=
  e.method == r.method && pathCheck e.path r.path &&
    queryCheck e.query_params r.query && headerCheck e.headers r.headers &&
    bodyCheck e.body r.body

/-- `find_matching_expectation` (dynamic.rs, lines 132-218): the first
candidate, in list order, passing all checks. -/
def find_matching_expectation {β : Type} :
    List (MockExpectation β) → ReqDescriptor → Option (MockExpectation β)
  | [], _ => none
  | e :: rest, r =>
      if satisfies e r then some e else find_matching_expectation rest r

/-- `ExpectationBuilder::header` (src/server/expectation_builder.rs, lines
57-62): required header names are lowercased on insertion. -/
def builder_header {β : Type} (e : MockExpectation β) (k v : Str) : MockExpectation β :=
  { e with headers := hmInsert e.headers (asciiLower k) v }

/-! ### The expectation registry (`MockServer`, src/server/mod.rs) -/

/-- The method-indexed expectation store of `MockServer`,
`HashMap<String, Vec<MockExpectation>>`, as an association list of buckets. -/
abbrev Registry (β : Type) := List (Str × List (MockExpectation β))

/-- `MockServer::add_expectation` (server/mod.rs, lines 115-125):
`entry(method).or_insert_with(Vec::new).push(expectation)` — append to the
method's bucket, creating the bucket when absent. -/
def add_expectation {β : Type} : Registry β → MockExpectation β → Registry β
  | [], e => [(e.method, [e])]
  | (m, es) :: rest, e =>
      if m == e.method then (m, es ++ [e]) :: rest
      else (m, es) :: add_expectation rest e

/-- Registering a list of expectations in order, starting from the empty
registry. -/
def addAll {β : Type} (es : List (MockExpectation β)) : Registry β :=
  es.foldl add_expectation []

/-- `MockServer::get_expectations` (server/mod.rs, lines 171-177):
`values().flat_map(|v| v.iter().cloned())` — the concatenation of all
buckets.  The bucket order of the underlying `HashMap` is arbitrary, so the
registration-order theorem quantifies over all permutations of the bucket
list. -/
def get_expectations {β : Type} (reg : Registry β) : List (MockExpectation β) :=
  reg.foldr (fun b acc => b.2 ++ acc) []

/-- The bucket stored under a method key (empty when the key is absent). -/
def bucketGet {β : Type} : Registry β → Str → List (MockExpectation β)
  | [], _ => []
  | (m, es) :: rest, k => if m == k then es else bucketGet rest k

/-- The invariant `MockServer`'s registry maintains: every expectation sits
in the bucket keyed by its own method, and bucket keys are distinct. -/
def RegistryInv {β : Type} (reg : Registry β) : Prop :=
  (∀ p ∈ reg, ∀ e ∈ p.2, e.method = p.1) ∧ (reg.map Prod.fst).Nodup

/-! ### The request ledger -/

/-- `RequestRecord` (src/models/record.rs) without its timestamp, which is
taken from the ambient clock and which no claim concerns. -/
structure RequestRecord where
  method : Str
  path : Str
  query_params : Str → Option Str
  headers : List (Str × Str)
  body : Option Str

/-- The trim step of `MockServer::record_request` (server/mod.rs, lines
146-150): when the log exceeds the maximum size, drain the oldest entries
down to the maximum. -/
def trimLog {α : Type} (maxSize : Nat) (log : List α) : List α :=
  if log.length > maxSize then log.drop (log.length - maxSize) else log

/-- One `record_request` append on the raw log: push, then trim. -/
def pushTrim {α : Type} (maxSize : Nat) (log : List α) (rec : α) : List α :=
  trimLog maxSize (log ++ [rec])

/-- A sequence of `record_request` appends on the raw log. -/
def pushTrimAll {α : Type} (maxSize : Nat) (log : List α) (recs : List α) : List α :=
  recs.foldl (pushTrim maxSize) log

/-! ### Conditional responses (src/conditional/handler.rs) -/

/-- `ConditionalResponse`: a call counter and a response-generating function
(`Fn(usize) -> MockResponse`; the response type is abstract here). -/
structure ConditionalResponse (γ : Type) where
  handler : Nat → γ
  call_count : Nat

/-- `ConditionalResponse::new` (handler.rs, lines 16-24): the counter starts
at 0. -/
def ConditionalResponse.new {γ : Type} (f : Nat → γ) : ConditionalResponse γ :=
  { handler := f, call_count := 0 }

/-- `ConditionalResponse::generate_response` (handler.rs, lines 26-29):
increment the counter by one, then apply the handler to the incremented
value. -/
def generate_response {γ : Type} (c : ConditionalResponse γ) :
    γ × ConditionalResponse γ :=
  let n := c.call_count + 1
  (c.handler n, { c with call_count := n })

/-- The call numbers passed to the handler by `n` successive invocations of
`generate_response`. -/
def callSeq {γ : Type} : ConditionalResponse γ → Nat → List Nat
  | _, 0 => []
  | c, n + 1 =>
      let r := generate_response c
      r.2.call_count :: callSeq r.2 n

/-! ### Response resolution (`create_response`, dynamic.rs lines 221-282) -/

/-- The body of a concrete response, tagged with the source it was produced
from. -/
inductive RespBody (β : Type) where
  | fromFileJson (v : β)
  | fromFileText (s : Str)
  | fromInline (v : β)
  | empty
  deriving DecidableEq

/-- The outcome of resolving a response or dispatching a request. -/
inductive DispatchResult (β : Type) where
  | response (status : Nat) (headers : List (Str × Str)) (body : RespBody β)
  | serverFault (file : Str) (msg : Str)
  | notFound (method : Str) (path : Str)
  deriving DecidableEq

/-- `StatusCode::from_u16(..).unwrap_or(StatusCode::OK)` (dynamic.rs, line
226): status codes outside the `http` crate's valid range 100..=999 fall
back to 200. -/
def statusOf (n : Nat) : Nat := if 100 ≤ n ∧ n ≤ 999 then n else 200

/-- `create_response` (dynamic.rs, lines 221-282).  The file branch is taken
whenever `body_file` is set: on read success the content is returned — as
JSON, with an extra `Content-Type: application/json` header, when it parses,
and as plain text otherwise — and on read failure a server fault (HTTP 500)
is returned.  Only when no `body_file` is set is the inline `body`
serialized; with neither, the body is empty. -/
def create_response {β : Type} (parseJson : Str → Option β)
    (readFile : Str → Except Str Str) (resp : MockResponse β) : DispatchResult β :=
  match resp.body_file with
  | some fileName =>
      match readFile fileName with
      | Except.ok content =>
          match parseJson content with
          | some j =>
              DispatchResult.response (statusOf resp.status_code)
                (resp.headers ++ [("Content-Type".toList, "application/json".toList)])
                (RespBody.fromFileJson j)
          | none =>
              DispatchResult.response (statusOf resp.status_code) resp.headers
                (RespBody.fromFileText content)
      | Except.error e => DispatchResult.serverFault fileName e
  | none =>
      match resp.body with
      | some b =>
          DispatchResult.response (statusOf resp.status_code) resp.headers
            (RespBody.fromInline b)
      | none =>
          DispatchResult.response (statusOf resp.status_code) resp.headers
            RespBody.empty

/-! ### Dispatch (`handle_dynamic_request`, dynamic.rs lines 18-67) -/

/-- The shared state of `MockServer` (server/mod.rs, lines 18-26): the
method-indexed expectation registry, the bounded request log and its maximum
size.  The `resource_dir` field is absorbed into the `readFile` function. -/
structure SystemState (β : Type) where
  expectations : Registry β
  request_log : List RequestRecord
  max_request_log_size : Nat

/-- The `RequestRecord` built from a request descriptor by
`handle_dynamic_request` (timestamp omitted). -/
def mkRecord (r : ReqDescriptor) : RequestRecord :=
  { method := r.method, path := r.path, query_params := r.query,
    headers := r.headers, body := r.body }

/-- `MockServer::record_request` (server/mod.rs, lines 127-151): push the
new record, then trim the oldest entries beyond the maximum size; one atomic
step under the log's write lock. -/
def record_request {β : Type} (s : SystemState β) (r : ReqDescriptor) : SystemState β :=
  { s with request_log :=
      trimLog s.max_request_log_size (s.request_log ++ [mkRecord r]) }

/-- `handle_dynamic_request` (dynamic.rs, lines 18-67): record the request in
the ledger, then look for a matching expectation among the registry's
expectations; resolve the first match's response, or answer 404 when none
matches. -/
def handle_dynamic_request {β : Type} (parseJson : Str → Option β)
    (readFile : Str → Except Str Str) (s : SystemState β) (r : ReqDescriptor) :
    SystemState β × DispatchResult β :=
  let s1 := record_request s r
  match find_matching_expectation (get_expectations s1.expectations) r with
  | some e => (s1, create_response parseJson readFile e.response)
  | none => (s1, DispatchResult.notFound r.method r.path)

/-! ### Concrete fixtures used by witnesses -/

/-- A concrete response template fixture. -/
def respFix (b : Option Unit) (bf : Option Str) : MockResponse Unit :=
  { status_code := 200, headers := [], body := b, body_file := bf }

/-- A concrete expectation fixture for `GET /a`. -/
def expFix (i : Str) (b : Option Unit) (bf : Option Str) : MockExpectation Unit :=
  { id := i, method := "GET".toList, path := "/a".toList, query_params := [],
    headers := [], body := none, response := respFix b bf }

/-- A concrete request fixture for `GET /a`. -/
def reqFix : ReqDescriptor :=
  { method := "GET".toList, path := "/a".toList, query := fun _ => none,
    headers := [], body := none }

/-- A concrete server state fixture with an empty ledger. -/
def stateFix (reg : Registry Unit) : SystemState Unit :=
  { expectations := reg, request_log := [], max_request_log_size := 1000 }

/-! ## Theorems -/

/-- The string produced by `replace('*', ".*")` never starts with `'*'`. -/
theorem replaceStar_ne_star_head (l : Str) (d : Char) (l' : Str)
    (h : replaceStar l = d :: l') : d ≠ '*' := by
  cases l with
  | nil => simp [replaceStar] at h
  | cons c rest =>
    by_cases hc : c = '*'
    · subst hc
      simp [replaceStar] at h
      cases h.1
      decide
    · simp [replaceStar, hc] at h
      rw [← h.1]
      exact hc

/-- Parsing the regex built by `replace('*', ".*")` yields exactly the
character-by-character translation: `'*'` becomes a match-any run, `'.'`
stays the any-character metacharacter, and every other character is kept
verbatim (unescaped). -/
theorem regexToToks_replaceStar (spec : Str) :
    regexToToks (replaceStar spec) = directToks spec := by
  induction spec with
  | nil => rfl
  | cons c rest ih =>
    by_cases hc : c = '*'
    · subst hc
      simp only [replaceStar, beq_self_eq_true, if_true, regexToToks, starTok, directToks,
        List.map_cons]
      simp [ih, directToks]
    · cases h : replaceStar rest with
      | nil =>
        have hrest : rest = [] := by
          cases rest with
          | nil => rfl
          | cons x xs => by_cases hx : x = '*' <;> simp [replaceStar, hx] at h
        subst hrest
        simp [replaceStar, hc, regexToToks, directToks]
      | cons d l' =>
        have hd : d ≠ '*' := replaceStar_ne_star_head rest d l' h
        have ih2 : regexToToks (d :: l') = directToks rest := by rw [← ih, h]
        simp [replaceStar, hc, h, regexToToks, hd, directToks, ih2]

/-- C2 (amended): for every path specification, if it contains no `'*'` the
compiled pattern is an exact match (a candidate matches iff it equals the
specification); otherwise the characters between `'*'` tokens are inserted
into the regex verbatim — unescaped, so a regex metacharacter such as `'.'`
keeps its regex meaning (`anyChar`) instead of matching only itself — the
`'*'` tokens become match-any-characters segments, and the pattern is
anchored at both ends (`tokMatch` is whole-string matching, modelling the
`"^...$"` wrapper). -/
theorem c2_path_pattern_compilation (spec path : Str) :
    (spec.contains '*' = false → (pathCheck spec path = true ↔ spec = path)) ∧
    regexToToks (replaceStar spec) = directToks spec := by
  refine ⟨fun h => ?_, regexToToks_replaceStar spec⟩
  have h2 : '*' ∉ spec := by simpa using h
  simp [pathCheck, h2]

/-- C2 witness: the theorem applied to a concrete wildcard-free
specification and to a concrete wildcard specification. -/
theorem c2_path_pattern_compilation_witness :
    pathCheck "/api/users/1".toList "/api/users/1".toList = true ∧
    regexToToks (replaceStar "/api/*".toList) = directToks "/api/*".toList := by
  constructor
  · exact ((c2_path_pattern_compilation "/api/users/1".toList "/api/users/1".toList).1
      (by decide)).mpr rfl
  · exact (c2_path_pattern_compilation "/api/*".toList "/x".toList).2

/-- C2 counterexample: the code does not escape regex metacharacters in the
literal runs.  The specification `"/a.b*"` accepts the path `"/aXbZ"`, in
which the `'.'` position holds `'X'`, while the escaped pattern the claim
describes rejects it. -/
theorem c2_no_escaping_counterexample :
    pathCheck "/a.b*".toList "/aXbZ".toList = true ∧
    pathCheckSpec "/a.b*".toList "/aXbZ".toList = false := by
  exact ⟨by decide, by decide⟩

/-- When a string does not contain the separator, `split_once` finds
nothing. -/
theorem splitOnce_eq_none (sep : Char) (l : Str) (h : sep ∉ l) :
    splitOnce sep l = none := by
  induction l with
  | nil => rfl
  | cons c rest ih =>
    simp at h
    have hc : ¬c = sep := fun hh => h.1 hh.symm
    simp [splitOnce, hc, ih h.2]

/-- What `split_once` returns: the part before the first separator (which
therefore contains no separator) and the part after it, both verbatim
substrings of the input. -/
theorem splitOnce_eq_some (sep : Char) :
    ∀ l a b : Str, splitOnce sep l = some (a, b) →
      l = a ++ sep :: b ∧ sep ∉ a := by
  intro l
  induction l with
  | nil => intro a b h; simp [splitOnce] at h
  | cons c rest ih =>
    intro a b h
    by_cases hc : c = sep
    · subst hc
      simp [splitOnce] at h
      obtain ⟨ha, hb⟩ := h
      subst ha
      subst hb
      simp
    · simp only [splitOnce] at h
      rw [if_neg (by simpa using hc)] at h
      cases hs : splitOnce sep rest with
      | none => rw [hs] at h; simp at h
      | some p =>
        rw [hs] at h
        simp at h
        obtain ⟨hl, hcont⟩ := ih p.1 p.2 (by rw [hs])
        rw [← h.1, ← h.2]
        refine ⟨by simp [hl], ?_⟩
        simp only [List.mem_cons, not_or]
        exact ⟨fun hh => hc hh.symm, hcont⟩

/-- Lookup after folding the query pieces into the map: the value of a key is
the value of the last `'='`-carrying piece with that key, falling back to the
initial map when the key occurs in no piece. -/
theorem extract_foldl_lookup (ps : List Str) :
    ∀ (m : Str → Option Str) (k : Str),
      (ps.foldl
        (fun m piece =>
          match splitOnce '=' piece with
          | some kv => mapInsert m kv.1 kv.2
          | none => m)
        m) k =
      match ((ps.filterMap (splitOnce '=')).filter fun kv => kv.1 == k).getLast? with
      | some kv => some kv.2
      | none => m k := by
  induction ps with
  | nil => intro m k; rfl
  | cons p ps ih =>
    intro m k
    cases hp : splitOnce '=' p with
    | none =>
      simp only [List.foldl_cons, hp]
      rw [ih, List.filterMap_cons_none hp]
    | some kv =>
      simp only [List.foldl_cons, hp]
      rw [ih, List.filterMap_cons_some hp]
      by_cases hk : kv.1 = k
      · rw [List.filter_cons_of_pos (by simpa using hk)]
        cases hrest : ((ps.filterMap (splitOnce '=')).filter fun kv => kv.1 == k).getLast? with
        | none =>
          have hnil := List.getLast?_eq_none_iff.mp hrest
          rw [hnil]
          simp [mapInsert, hk]
        | some kv2 =>
          have hne : (ps.filterMap (splitOnce '=')).filter (fun kv => kv.1 == k) ≠ [] := by
            intro hcon
            rw [hcon] at hrest
            simp at hrest
          obtain ⟨y, ys, hys⟩ := List.exists_cons_of_ne_nil hne
          rw [hys]
          rw [hys] at hrest
          rw [List.getLast?_cons_cons, hrest]
      · rw [List.filter_cons_of_neg (by simpa using hk)]
        cases hrest : ((ps.filterMap (splitOnce '=')).filter fun kv => kv.1 == k).getLast? with
        | none =>
          have hne : (k == kv.1) = false := by
            simp
            exact fun hh => hk hh.symm
          simp [mapInsert, hne]
        | some kv2 => rfl

/-- C10: the query map is built by splitting the raw query string on `'&'`
and then on the first `'='` of each piece; a lookup returns the value of the
last piece carrying the key (later occurrences overwrite earlier ones); each
key/value pair reassembles its piece verbatim — no percent-decoding of keys
or values — with a key containing no `'='` (the split is at the first
`'='`); and a piece with no `'='` (a bare key) produces no pair at all. -/
theorem c10_extract_query_params (q k : Str) :
    (extract_query_params (some q) k =
      match ((( splitOnChar '&' q).filterMap (splitOnce '=')).filter fun kv => kv.1 == k).getLast? with
      | some kv => some kv.2
      | none => none) ∧
    (∀ kv ∈ (splitOnChar '&' q).filterMap (splitOnce '='),
      kv.1 ++ '=' :: kv.2 ∈ splitOnChar '&' q ∧ '=' ∉ kv.1) ∧
    (∀ piece : Str, '=' ∉ piece → splitOnce '=' piece = none) := by
  refine ⟨extract_foldl_lookup (splitOnChar '&' q) emptyMap k, ?_, ?_⟩
  · intro kv hkv
    obtain ⟨piece, hpiece, hsplit⟩ := List.mem_filterMap.mp hkv
    obtain ⟨hre, hnot⟩ := splitOnce_eq_some '=' piece kv.1 kv.2 (by
      cases kv
      exact hsplit)
    exact ⟨by rw [← hre]; exact hpiece, hnot⟩
  · exact splitOnce_eq_none '='

/-- C10 witness: on the concrete query string `"a=1&a=2&b&c=x%20y"`, the last
occurrence of `"a"` wins, the `"c"` pair is kept verbatim (no
percent-decoding), and the bare key `"b"` yields no pair. -/
theorem c10_extract_query_params_witness :
    extract_query_params (some "a=1&a=2&b&c=x%20y".toList) "a".toList = some "2".toList ∧
    "c".toList ++ '=' :: "x%20y".toList ∈ splitOnChar '&' "a=1&a=2&b&c=x%20y".toList ∧
    splitOnce '=' "b".toList = none := by
  refine ⟨?_, ?_, ?_⟩
  · rw [(c10_extract_query_params "a=1&a=2&b&c=x%20y".toList "a".toList).1]
    decide
  · exact ((c10_extract_query_params "a=1&a=2&b&c=x%20y".toList "a".toList).2.1
      ("c".toList, "x%20y".toList) (by decide)).1
  · exact (c10_extract_query_params "a=1&a=2&b&c=x%20y".toList "a".toList).2.2
      "b".toList (by decide)

/-- The query predicate depends only on the request map's values at the
required keys. -/
theorem queryCheck_congr (q q2 : Str → Option Str) :
    ∀ required : List (Str × Str), (∀ kv ∈ required, q2 kv.1 = q kv.1) →
      queryCheck required q2 = queryCheck required q := by
  intro required
  induction required with
  | nil => intro _; rfl
  | cons kv rest ih =>
    intro h
    have h1 : q2 kv.1 = q kv.1 := h kv (by simp)
    have h2 := ih fun x hx => h x (List.mem_cons_of_mem _ hx)
    simp only [queryCheck, List.all_cons] at h2 ⊢
    rw [h1, h2]

/-- C3: the query predicate of `find_matching_expectation` is a subset
match — it passes exactly when every required key is present in the
request's query map with an identical value — and its outcome never depends
on query keys the expectation does not require (two request maps agreeing on
the required keys give the same outcome). -/
theorem c3_query_subset_match (required : List (Str × Str)) (q : Str → Option Str) :
    (queryCheck required q = true ↔ ∀ kv ∈ required, q kv.1 = some kv.2) ∧
    (∀ q2 : Str → Option Str, (∀ kv ∈ required, q2 kv.1 = q kv.1) →
      queryCheck required q2 = queryCheck required q) := by
  constructor
  · simp [queryCheck, List.all_eq_true]
  · exact fun q2 h => queryCheck_congr q q2 required h

/-- C3 witness: requiring `q=test` and `limit=10` accepts a request map that
also carries `extra=1`, rejects one without `limit`, rejects `limit=20`, and
removing the unrequired `extra` key does not change the outcome. -/
theorem c3_query_subset_match_witness :
    queryCheck [("q".toList, "test".toList), ("limit".toList, "10".toList)]
      (extract_query_params (some "q=test&limit=10&extra=1".toList)) = true ∧
    queryCheck [("q".toList, "test".toList), ("limit".toList, "10".toList)]
      (extract_query_params (some "q=test".toList)) = false ∧
    queryCheck [("q".toList, "test".toList), ("limit".toList, "10".toList)]
      (extract_query_params (some "q=test&limit=20".toList)) = false ∧
    queryCheck [("q".toList, "test".toList), ("limit".toList, "10".toList)]
      (extract_query_params (some "q=test&limit=10&extra=1".toList)) =
      queryCheck [("q".toList, "test".toList), ("limit".toList, "10".toList)]
        (extract_query_params (some "q=test&limit=10".toList)) := by
  refine ⟨?_, by decide, by decide, ?_⟩
  · exact (c3_query_subset_match _ _).1.mpr (by decide)
  · exact (c3_query_subset_match _
      (extract_query_params (some "q=test&limit=10".toList))).2
      (extract_query_params (some "q=test&limit=10&extra=1".toList)) (by decide)

/-- A `Nat` in the Latin-letter range maps to a valid character code. -/
theorem toNat_ofNat_valid (n : Nat) (h : n.isValidChar) : (Char.ofNat n).toNat = n := by
  simp [Char.ofNat, h, Char.ofNatAux, Char.toNat, UInt32.toNat, BitVec.toNat_ofNatLt]

/-- ASCII lowercasing of a character is idempotent. -/
theorem lowerChar_idem (c : Char) : lowerChar (lowerChar c) = lowerChar c := by
  by_cases h : c.toNat ≥ 65 ∧ c.toNat ≤ 90
  · have hv : (c.toNat + 32).isValidChar := Or.inl (by omega)
    have h1 : lowerChar c = Char.ofNat (c.toNat + 32) := if_pos h
    rw [h1]
    have h2 : (Char.ofNat (c.toNat + 32)).toNat = c.toNat + 32 := toNat_ofNat_valid _ hv
    have h3 : ¬((Char.ofNat (c.toNat + 32)).toNat ≥ 65 ∧
        (Char.ofNat (c.toNat + 32)).toNat ≤ 90) := by
      rw [h2]; omega
    exact if_neg h3
  · have h1 : lowerChar c = c := if_neg h
    rw [h1, h1]

/-- ASCII lowercasing of a string is idempotent. -/
theorem asciiLower_idem (s : Str) : asciiLower (asciiLower s) = asciiLower s := by
  unfold asciiLower
  rw [List.map_map]
  exact List.map_congr_left fun a _ => lowerChar_idem a

/-- C9: header-name matching is case-insensitive while header-value matching
is case-sensitive.  The builder stores the required name lowercased
(`ExpectationBuilder::header`), and the lookup into the request's header map
compares names up to ASCII case (`HeaderMap::get`), so a required header
registered under name `K` is satisfied by a request header `(N, W)` exactly
when `N` equals `K` up to ASCII case and `W` is byte-for-byte equal to the
required value. -/
theorem c9_header_case_insensitive {β : Type} (e : MockExpectation β) (K V N W : Str) :
    (builder_header e K V).headers = hmInsert e.headers (asciiLower K) V ∧
    (asciiLower N = asciiLower K →
      headerCheck (builder_header { e with headers := [] } K V).headers [(N, W)] = (W == V)) ∧
    (asciiLower N ≠ asciiLower K →
      headerCheck (builder_header { e with headers := [] } K V).headers [(N, W)] = false) := by
  refine ⟨rfl, fun h => ?_, fun h => ?_⟩
  · have hcond : (asciiLower N == asciiLower (asciiLower K)) = true := by
      rw [asciiLower_idem, h]
      exact beq_self_eq_true _
    simp [headerCheck, builder_header, hmInsert, headerMapGet, List.find?, hcond]
  · have hcond : (asciiLower N == asciiLower (asciiLower K)) = false := by
      rw [asciiLower_idem]
      simpa using h
    simp [headerCheck, builder_header, hmInsert, headerMapGet, List.find?, hcond]

/-- C9 witness: a header required as `X-Api-Key` is matched by the request
header name `x-API-key` when the value agrees exactly, and not matched when
only the value's case differs. -/
theorem c9_header_case_insensitive_witness :
    headerCheck (builder_header
      ({ id := [], method := "GET".toList, path := "/".toList, query_params := [],
         headers := [], body := none,
         response := { status_code := 200, headers := [], body := none, body_file := none } } :
        MockExpectation Unit)
      "X-Api-Key".toList "secret".toList).headers
      [("x-API-key".toList, "secret".toList)] = true ∧
    headerCheck (builder_header
      ({ id := [], method := "GET".toList, path := "/".toList, query_params := [],
         headers := [], body := none,
         response := { status_code := 200, headers := [], body := none, body_file := none } } :
        MockExpectation Unit)
      "X-Api-Key".toList "secret".toList).headers
      [("x-API-key".toList, "SECRET".toList)] = false := by
  constructor
  · exact ((c9_header_case_insensitive
      ({ id := [], method := "GET".toList, path := "/".toList, query_params := [],
         headers := [], body := none,
         response := { status_code := 200, headers := [], body := none, body_file := none } } :
        MockExpectation Unit)
      "X-Api-Key".toList "secret".toList "x-API-key".toList "secret".toList).2.1
      (by decide)).trans (by decide)
  · exact ((c9_header_case_insensitive
      ({ id := [], method := "GET".toList, path := "/".toList, query_params := [],
         headers := [], body := none,
         response := { status_code := 200, headers := [], body := none, body_file := none } } :
        MockExpectation Unit)
      "X-Api-Key".toList "secret".toList "x-API-key".toList "SECRET".toList).2.1
      (by decide)).trans (by decide)

/-- The trim step always keeps exactly the newest `min length maxSize`
entries: it is a drop of the oldest surplus entries (a drop of zero when the
log fits). -/
theorem trimLog_eq_drop {α : Type} (maxSize : Nat) (l : List α) :
    trimLog maxSize l = l.drop (l.length - maxSize) := by
  unfold trimLog
  split
  · rfl
  · rename_i h
    have h0 : l.length - maxSize = 0 := by omega
    rw [h0, List.drop_zero]

/-- After a trim the log never exceeds the maximum size. -/
theorem trimLog_length_le {α : Type} (maxSize : Nat) (l : List α) :
    (trimLog maxSize l).length ≤ maxSize := by
  rw [trimLog_eq_drop, List.length_drop]
  omega

/-- Folding a sequence of push-and-trim appends over a log that fits is the
same as appending everything and then dropping the oldest surplus. -/
theorem pushTrimAll_eq_drop {α : Type} (maxSize : Nat) :
    ∀ (recs s : List α), s.length ≤ maxSize →
      pushTrimAll maxSize s recs = (s ++ recs).drop ((s ++ recs).length - maxSize) := by
  intro recs
  induction recs with
  | nil =>
    intro s hs
    have h0 : (s ++ []).length - maxSize = 0 := by simp; omega
    rw [h0, List.drop_zero, List.append_nil]
    rfl
  | cons rec recs ih =>
    intro s hs
    show pushTrimAll maxSize (pushTrim maxSize s rec) recs = _
    have hlen : (pushTrim maxSize s rec).length ≤ maxSize := trimLog_length_le _ _
    rw [ih (pushTrim maxSize s rec) hlen]
    have hx : pushTrim maxSize s rec = (s ++ [rec]).drop ((s ++ [rec]).length - maxSize) :=
      trimLog_eq_drop _ _
    rw [hx]
    have e1 : ((s ++ [rec]) ++ recs).drop ((s ++ [rec]).length - maxSize) =
        (s ++ [rec]).drop ((s ++ [rec]).length - maxSize) ++ recs := by
      rw [List.drop_append_eq_append_drop]
      have h0 : (s ++ [rec]).length - maxSize - (s ++ [rec]).length = 0 := by omega
      rw [h0, List.drop_zero]
    rw [← e1, List.drop_drop]
    have e2 : (s ++ [rec]) ++ recs = s ++ rec :: recs := by simp
    rw [e2]
    congr 1
    simp only [List.length_drop, List.length_append, List.length_cons, List.length_nil]
    omega

/-- C4: appending `maxSize + K` records to the empty ledger one by one, each
append trimming the oldest surplus, leaves exactly the most recent `maxSize`
records (`recs.drop K`), in append order, and the ledger's length is exactly
`maxSize`. -/
theorem c4_ledger_bound {α : Type} (maxSize K : Nat) (recs : List α)
    (h : recs.length = maxSize + K) :
    pushTrimAll maxSize [] recs = recs.drop K ∧
    (pushTrimAll maxSize [] recs).length = maxSize := by
  have h1 := pushTrimAll_eq_drop maxSize recs [] (by simp)
  rw [List.nil_append] at h1
  have hK : recs.length - maxSize = K := by omega
  rw [hK] at h1
  refine ⟨h1, ?_⟩
  rw [h1, List.length_drop]
  omega

/-- C4 witness: with capacity 2, appending the three records 1, 2, 3 leaves
exactly the two most recent, in order. -/
theorem c4_ledger_bound_witness :
    pushTrimAll 2 ([] : List Nat) [1, 2, 3] = [2, 3] ∧
    (pushTrimAll 2 ([] : List Nat) [1, 2, 3]).length = 2 := by
  have h := c4_ledger_bound 2 1 [1, 2, 3] (by decide)
  exact ⟨h.1.trans (by decide), h.2⟩

/-- The call numbers produced by `n` successive `generate_response` calls
starting from counter value `c.call_count` are the `n` consecutive numbers
starting at `c.call_count + 1`. -/
theorem callSeq_eq_range' {γ : Type} :
    ∀ (n : Nat) (c : ConditionalResponse γ),
      callSeq c n = List.range' (c.call_count + 1) n := by
  intro n
  induction n with
  | zero => intro c; rfl
  | succ n ih =>
    intro c
    show (c.call_count + 1) :: callSeq { c with call_count := c.call_count + 1 } n = _
    rw [ih]
    rfl

/-- C5: `generate_response` increments the call counter by exactly one
before applying the generator function, applies the generator to the
post-increment value, and `N` successive invocations starting from a fresh
`ConditionalResponse` (counter 0) produce the call numbers
`List.range' 1 N = [1, 2, ..., N]` — the first invocation is call number 1,
with no repeats and no gaps. -/
theorem c5_conditional_call_numbers {γ : Type} (f : Nat → γ) (N : Nat)
    (c : ConditionalResponse γ) :
    callSeq (ConditionalResponse.new f) N = List.range' 1 N ∧
    (generate_response c).2.call_count = c.call_count + 1 ∧
    (generate_response c).1 = c.handler (c.call_count + 1) := by
  exact ⟨callSeq_eq_range' N (ConditionalResponse.new f), rfl, rfl⟩

/-- C6 counterexample: a response template carrying both an inline body and a
file reference resolves to the file's content, not to the inline value — the
file branch of `create_response` is taken first. -/
theorem c6_inline_precedence_counterexample :
    create_response (fun _ => none) (fun _ => Except.ok "filetext".toList)
      ({ status_code := 200, headers := [], body := some (),
         body_file := some "body.json".toList } : MockResponse Unit) =
      DispatchResult.response 200 [] (RespBody.fromFileText "filetext".toList) ∧
    DispatchResult.response 200 ([] : List (Str × Str))
        (RespBody.fromFileText "filetext".toList) ≠
      DispatchResult.response 200 [] (RespBody.fromInline ()) := by
  exact ⟨by decide, by decide⟩

/-- C6 (amended): when a response template carries a file reference, the file
reference is authoritative even if an inline body is also present: on a
successful read the body comes from the file content (as JSON when it
parses, as text otherwise), a failed read yields a server fault, and the
inline body value has no influence on the result.  The inline value is used
only when no file reference is present. -/
theorem c6_file_wins_over_inline {β : Type} (parseJson : Str → Option β)
    (readFile : Str → Except Str Str) (resp : MockResponse β) (f : Str)
    (hf : resp.body_file = some f) :
    (∀ content, readFile f = Except.ok content →
      create_response parseJson readFile resp =
        match parseJson content with
        | some j =>
            DispatchResult.response (statusOf resp.status_code)
              (resp.headers ++ [("Content-Type".toList, "application/json".toList)])
              (RespBody.fromFileJson j)
        | none =>
            DispatchResult.response (statusOf resp.status_code) resp.headers
              (RespBody.fromFileText content)) ∧
    (∀ msg, readFile f = Except.error msg →
      create_response parseJson readFile resp = DispatchResult.serverFault f msg) ∧
    (∀ b : Option β,
      create_response parseJson readFile { resp with body := b } =
        create_response parseJson readFile resp) := by
  refine ⟨fun content hc => ?_, fun msg hm => ?_, fun b => ?_⟩
  · unfold create_response
    simp only [hf, hc]
  · unfold create_response
    simp only [hf, hm]
  · unfold create_response
    simp only [hf]

/-- C6 witness: the amended theorem applied to a concrete template carrying
both body kinds, under a succeeding and under a failing file read. -/
theorem c6_file_wins_over_inline_witness :
    create_response (fun _ => none) (fun _ => Except.ok "filetext".toList)
      ({ status_code := 200, headers := [], body := some (),
         body_file := some "body.json".toList } : MockResponse Unit) =
      DispatchResult.response 200 [] (RespBody.fromFileText "filetext".toList) ∧
    create_response (fun _ => none) (fun _ => Except.error "missing".toList)
      ({ status_code := 200, headers := [], body := some (),
         body_file := some "body.json".toList } : MockResponse Unit) =
      DispatchResult.serverFault "body.json".toList "missing".toList := by
  constructor
  · exact ((c6_file_wins_over_inline (fun _ => none) (fun _ => Except.ok "filetext".toList)
      ({ status_code := 200, headers := [], body := some (),
         body_file := some "body.json".toList } : MockResponse Unit)
      "body.json".toList rfl).1 "filetext".toList rfl).trans (by decide)
  · exact (c6_file_wins_over_inline (fun _ => none) (fun _ => Except.error "missing".toList)
      ({ status_code := 200, headers := [], body := some (),
         body_file := some "body.json".toList } : MockResponse Unit)
      "body.json".toList rfl).2.1 "missing".toList rfl

/-- C7: when the matched expectation's response references a file and the
read fails, dispatch yields a server fault (neither a match failure nor
`notFound`), and the match is not retried against any later candidate — the
conclusion holds for every registry state in which this expectation is the
first match, whatever candidates follow it. -/
theorem c7_read_error_server_fault {β : Type} (parseJson : Str → Option β)
    (readFile : Str → Except Str Str) (s : SystemState β) (r : ReqDescriptor)
    (e : MockExpectation β) (f msg : Str)
    (hfind : find_matching_expectation (get_expectations s.expectations) r = some e)
    (hfile : e.response.body_file = some f)
    (hread : readFile f = Except.error msg) :
    (handle_dynamic_request parseJson readFile s r).2 =
      DispatchResult.serverFault f msg := by
  unfold handle_dynamic_request
  have hexp : (record_request s r).expectations = s.expectations := rfl
  simp only [hexp, hfind]
  unfold create_response
  simp only [hfile, hread]

/-- C8: every dispatch appends exactly one request record to the ledger (the
new log is the trimmed extension of the old log by the request's record),
leaves the expectation registry and the configured maximum log size
untouched, mutates nothing else of the server state — the state consists
exactly of these three components — and this holds also when no expectation
matches, in which case the response is `notFound`. -/
theorem c8_dispatch_frame {β : Type} (parseJson : Str → Option β)
    (readFile : Str → Except Str Str) (s : SystemState β) (r : ReqDescriptor) :
    (handle_dynamic_request parseJson readFile s r).1.expectations = s.expectations ∧
    (handle_dynamic_request parseJson readFile s r).1.max_request_log_size =
      s.max_request_log_size ∧
    (handle_dynamic_request parseJson readFile s r).1.request_log =
      trimLog s.max_request_log_size (s.request_log ++ [mkRecord r]) ∧
    (find_matching_expectation (get_expectations s.expectations) r = none →
      (handle_dynamic_request parseJson readFile s r).2 =
        DispatchResult.notFound r.method r.path) := by
  unfold handle_dynamic_request
  have hexp : (record_request s r).expectations = s.expectations := rfl
  simp only [hexp]
  cases hfind : find_matching_expectation (get_expectations s.expectations) r with
  | none => exact ⟨rfl, rfl, rfl, fun _ => rfl⟩
  | some e =>
    refine ⟨rfl, rfl, rfl, fun hnone => ?_⟩
    have hcontra : (none : Option (MockExpectation β)) = some e := by
      rw [← hnone]
    exact Option.noConfusion hcontra

/-- C8 witness: dispatching against an empty registry leaves the registry
empty, appends the one record, and answers `notFound`. -/
theorem c8_dispatch_frame_witness :
    (handle_dynamic_request (fun _ => none) (fun _ => Except.error "e".toList)
      (stateFix []) reqFix).1.expectations = [] ∧
    (handle_dynamic_request (fun _ => none) (fun _ => Except.error "e".toList)
      (stateFix []) reqFix).1.request_log =
      trimLog 1000 ([] ++ [mkRecord reqFix]) ∧
    (handle_dynamic_request (fun _ => none) (fun _ => Except.error "e".toList)
      (stateFix []) reqFix).2 =
      DispatchResult.notFound "GET".toList "/a".toList := by
  have h := c8_dispatch_frame (fun _ => none) (fun _ => Except.error "e".toList)
    (stateFix []) reqFix
  exact ⟨h.1, h.2.2.1, h.2.2.2 rfl⟩

/-- C7 witness: the first match's file read fails, so dispatch answers with
the server fault even though a second, file-free expectation would also have
matched the request. -/
theorem c7_read_error_server_fault_witness :
    (handle_dynamic_request (fun _ => none) (fun _ => Except.error "io error".toList)
      (stateFix (addAll [expFix "1".toList none (some "missing.json".toList),
        expFix "2".toList (some ()) none])) reqFix).2 =
      DispatchResult.serverFault "missing.json".toList "io error".toList := by
  exact c7_read_error_server_fault (fun _ => none) (fun _ => Except.error "io error".toList)
    (stateFix (addAll [expFix "1".toList none (some "missing.json".toList),
      expFix "2".toList (some ()) none])) reqFix
    (expFix "1".toList none (some "missing.json".toList))
    "missing.json".toList "io error".toList (by decide) rfl rfl

/-- The matching loop is the first-satisfying search `List.find?`. -/
theorem find_eq_find? {β : Type} (l : List (MockExpectation β)) (r : ReqDescriptor) :
    find_matching_expectation l r = l.find? fun e => satisfies e r := by
  induction l with
  | nil => rfl
  | cons e rest ih =>
    by_cases h : satisfies e r
    · simp [find_matching_expectation, List.find?, h]
    · simp [find_matching_expectation, List.find?, h, ih]

/-- A satisfying candidate has the request's method (the method check is the
first conjunct of the loop body). -/
theorem satisfies_method {β : Type} (e : MockExpectation β) (r : ReqDescriptor)
    (h : satisfies e r = true) : (e.method == r.method) = true := by
  simp only [satisfies, Bool.and_eq_true] at h
  exact h.1.1.1.1

/-- Searching for the first satisfying element can be restricted to the
elements carrying the request's method. -/
theorem find?_filter_method {β : Type} (p : MockExpectation β → Bool) (M : Str)
    (hp : ∀ e, p e = true → (e.method == M) = true) :
    ∀ l : List (MockExpectation β),
      l.find? p = (l.filter fun e => e.method == M).find? p := by
  intro l
  induction l with
  | nil => rfl
  | cons e rest ih =>
    by_cases hpe : p e = true
    · simp [List.find?_cons, List.filter_cons, hpe, hp e hpe]
    · have hpe2 : p e = false := by simpa using hpe
      by_cases hm : (e.method == M) = true
      · simp [List.find?_cons, List.filter_cons, hpe2, hm, ih]
      · have hm2 : (e.method == M) = false := by simpa using hm
        simp [List.filter_cons, List.find?_cons, hpe2, hm2, ih]

/-- Adding an expectation appends it to the bucket of its method and touches
no other bucket. -/
theorem bucketGet_add {β : Type} (e : MockExpectation β) (k : Str) :
    ∀ reg : Registry β,
      bucketGet (add_expectation reg e) k =
        bucketGet reg k ++ if e.method == k then [e] else [] := by
  intro reg
  induction reg with
  | nil => simp [add_expectation, bucketGet]
  | cons b rest ih =>
    obtain ⟨m, es⟩ := b
    by_cases hm : (m == e.method) = true
    · have hme : m = e.method := by simpa using hm
      subst hme
      by_cases hk : (e.method == k) = true <;>
        simp [add_expectation, bucketGet, hk]
    · have hm2 : (m == e.method) = false := by simpa using hm
      by_cases hk : (m == k) = true
      · have hek : (e.method == k) = false := by
          have hne : ¬m = e.method := by simpa using hm2
          have hmk : m = k := by simpa using hk
          simpa using fun hc => hne (hmk.trans hc.symm)
        simp [add_expectation, bucketGet, hm2, hk, hek]
      · have hk2 : (m == k) = false := by simpa using hk
        simp [add_expectation, bucketGet, hm2, hk2, ih]

/-- Registering a list of expectations appends, to each method's bucket, the
expectations of that method in registration order. -/
theorem bucketGet_addAll {β : Type} (k : Str) :
    ∀ (es : List (MockExpectation β)) (reg : Registry β),
      bucketGet (es.foldl add_expectation reg) k =
        bucketGet reg k ++ es.filter fun e => e.method == k := by
  intro es
  induction es with
  | nil => intro reg; simp
  | cons e es ih =>
    intro reg
    rw [List.foldl_cons, ih (add_expectation reg e), bucketGet_add e k reg]
    by_cases h : (e.method == k) = true <;>
      simp [List.filter_cons, h]

/-- The bucket keys after an addition: unchanged when the method already has
a bucket, extended by the new method key otherwise. -/
theorem keys_add {β : Type} (e : MockExpectation β) :
    ∀ reg : Registry β,
      (add_expectation reg e).map Prod.fst =
        if e.method ∈ reg.map Prod.fst then reg.map Prod.fst
        else reg.map Prod.fst ++ [e.method] := by
  intro reg
  induction reg with
  | nil => simp [add_expectation]
  | cons b rest ih =>
    obtain ⟨m, es⟩ := b
    by_cases hm : (m == e.method) = true
    · have hme : m = e.method := by simpa using hm
      subst hme
      simp [add_expectation, List.mem_cons]
    · have hm2 : (m == e.method) = false := by simpa using hm
      have hne : ¬e.method = m := by
        have := (by simpa using hm2 : ¬m = e.method)
        exact fun hc => this hc.symm
      simp only [add_expectation, hm2, Bool.false_eq_true, if_false, List.map_cons, ih,
        List.mem_cons]
      by_cases hmem : e.method ∈ rest.map Prod.fst
      · simp [hmem, hne]
      · simp [hmem, hne]

/-- Adding an expectation preserves the registry invariant. -/
theorem registryInv_add {β : Type} (e : MockExpectation β) :
    ∀ reg : Registry β, RegistryInv reg → RegistryInv (add_expectation reg e) := by
  intro reg
  induction reg with
  | nil =>
    intro _
    constructor
    · intro p hp x hx
      simp only [add_expectation, List.mem_singleton] at hp
      subst hp
      simp only [List.mem_singleton] at hx
      subst hx
      rfl
    · simp [add_expectation]
  | cons b rest ih =>
    intro hinv
    obtain ⟨m, es⟩ := b
    obtain ⟨hmem, hnodup⟩ := hinv
    by_cases hm : (m == e.method) = true
    · have hme : m = e.method := by simpa using hm
      simp only [add_expectation, hm, if_true]
      constructor
      · intro p hp x hx
        rcases List.mem_cons.mp hp with hp1 | hp2
        · subst hp1
          rcases List.mem_append.mp hx with hx1 | hx2
          · exact hmem (m, es) (List.mem_cons_self _ _) x hx1
          · simp only [List.mem_singleton] at hx2
            subst hx2
            exact hme.symm
        · exact hmem p (List.mem_cons_of_mem _ hp2) x hx
      · simpa using hnodup
    · have hm2 : (m == e.method) = false := by simpa using hm
      simp only [add_expectation, hm2, Bool.false_eq_true, if_false]
      have hnodup2 : (List.map Prod.fst ((m, es) :: rest)).Nodup := hnodup
      rw [List.map_cons, List.nodup_cons] at hnodup2
      have hinvrest : RegistryInv rest :=
        ⟨fun p hp x hx => hmem p (List.mem_cons_of_mem _ hp) x hx, hnodup2.2⟩
      obtain ⟨hmemA, hnodupA⟩ := ih hinvrest
      constructor
      · intro p hp x hx
        rcases List.mem_cons.mp hp with hp1 | hp2
        · subst hp1
          exact hmem (m, es) (List.mem_cons_self _ _) x hx
        · exact hmemA p hp2 x hx
      · simp only [List.map_cons, List.nodup_cons]
        refine ⟨?_, hnodupA⟩
        intro hcon
        rw [keys_add e rest] at hcon
        by_cases hmem2 : e.method ∈ rest.map Prod.fst
        · rw [if_pos hmem2] at hcon
          exact hnodup2.1 hcon
        · rw [if_neg hmem2] at hcon
          rcases List.mem_append.mp hcon with hc1 | hc2
          · exact hnodup2.1 hc1
          · simp only [List.mem_singleton] at hc2
            exact (by simpa using hm2 : ¬m = e.method) hc2

/-- The registry built by a sequence of registrations satisfies the registry
invariant. -/
theorem registryInv_addAll {β : Type} (es : List (MockExpectation β)) :
    RegistryInv (addAll es) := by
  have hgen : ∀ (l : List (MockExpectation β)) (reg : Registry β), RegistryInv reg →
      RegistryInv (l.foldl add_expectation reg) := by
    intro l
    induction l with
    | nil => exact fun reg h => h
    | cons e l ih =>
      intro reg h
      exact ih (add_expectation reg e) (registryInv_add e reg h)
  exact hgen es [] ⟨by simp, by simp⟩

/-- When a method key is absent from every bucket and every expectation sits
under its own method's key, the flattened registry holds no expectation of
that method. -/
theorem flat_no_method {β : Type} (M : Str) :
    ∀ reg : Registry β, (∀ p ∈ reg, ∀ x ∈ p.2, x.method = p.1) →
      M ∉ reg.map Prod.fst →
      (get_expectations reg).filter (fun e => e.method == M) = [] := by
  intro reg
  induction reg with
  | nil => intro _ _; rfl
  | cons b rest ih =>
    intro hmem hnot
    obtain ⟨m, es⟩ := b
    simp only [List.map_cons, List.mem_cons, not_or] at hnot
    have h1 : ∀ x ∈ es, x.method = m :=
      fun x hx => hmem (m, es) (List.mem_cons_self _ _) x hx
    have hflat : get_expectations ((m, es) :: rest) = es ++ get_expectations rest := rfl
    rw [hflat, List.filter_append,
      ih (fun p hp x hx => hmem p (List.mem_cons_of_mem _ hp) x hx) hnot.2,
      List.append_nil]
    refine List.filter_eq_nil_iff.mpr fun x hx => ?_
    simp [h1 x hx]
    exact fun hc => hnot.1 hc.symm

/-- Under the registry invariant, filtering the flattened registry by a
method yields exactly that method's bucket, in bucket order. -/
theorem flat_filter_eq_bucket {β : Type} (M : Str) :
    ∀ reg : Registry β, RegistryInv reg →
      (get_expectations reg).filter (fun e => e.method == M) = bucketGet reg M := by
  intro reg
  induction reg with
  | nil => intro _; rfl
  | cons b rest ih =>
    intro hinv
    obtain ⟨m, es⟩ := b
    obtain ⟨hmem, hnodup⟩ := hinv
    rw [List.map_cons, List.nodup_cons] at hnodup
    have h1 : ∀ x ∈ es, x.method = m :=
      fun x hx => hmem (m, es) (List.mem_cons_self _ _) x hx
    have hmemrest : ∀ p ∈ rest, ∀ x ∈ p.2, x.method = p.1 :=
      fun p hp x hx => hmem p (List.mem_cons_of_mem _ hp) x hx
    have hflat : get_expectations ((m, es) :: rest) = es ++ get_expectations rest := rfl
    rw [hflat, List.filter_append]
    by_cases hm : (m == M) = true
    · have hmM : m = M := by simpa using hm
      have hes : es.filter (fun e => e.method == M) = es :=
        List.filter_eq_self.mpr fun x hx => by simp [h1 x hx, hmM]
      have hrest : (get_expectations rest).filter (fun e => e.method == M) = [] :=
        flat_no_method M rest hmemrest (hmM ▸ hnodup.1)
      simp [hes, hrest, bucketGet, hm]
    · have hm2 : (m == M) = false := by simpa using hm
      have hes : es.filter (fun e => e.method == M) = [] :=
        List.filter_eq_nil_iff.mpr fun x hx => by
          simp [h1 x hx]
          exact by simpa using hm2
      rw [hes, List.nil_append, ih ⟨hmemrest, hnodup.2⟩]
      simp [bucketGet, hm2]

/-- The registry invariant is preserved by permuting the bucket list. -/
theorem registryInv_perm {β : Type} {reg reg2 : Registry β}
    (h : List.Perm reg reg2) (hinv : RegistryInv reg) : RegistryInv reg2 :=
  ⟨fun p hp x hx => hinv.1 p (h.mem_iff.mpr hp) x hx,
    ((h.map Prod.fst).nodup_iff).mp hinv.2⟩

/-- A key present among the bucket keys is the key of the bucket `bucketGet`
returns. -/
theorem bucketGet_mem {β : Type} (M : Str) :
    ∀ reg : Registry β, M ∈ reg.map Prod.fst → (M, bucketGet reg M) ∈ reg := by
  intro reg
  induction reg with
  | nil => intro h; simp at h
  | cons b rest ih =>
    intro h
    obtain ⟨m, es⟩ := b
    by_cases hm : (m == M) = true
    · have hmM : m = M := by simpa using hm
      subst hmM
      simp [bucketGet]
    · have hm2 : (m == M) = false := by simpa using hm
      have hMrest : M ∈ rest.map Prod.fst := by
        simp only [List.map_cons, List.mem_cons] at h
        rcases h with h1 | h2
        · exact absurd h1.symm (by simpa using hm2)
        · exact h2
      simp only [bucketGet, hm2, Bool.false_eq_true, if_false]
      exact List.mem_cons_of_mem _ (ih hMrest)

/-- With distinct bucket keys, `bucketGet` returns the content of the unique
bucket holding the key. -/
theorem bucketGet_eq_of_mem {β : Type} (M : Str) (es : List (MockExpectation β)) :
    ∀ reg : Registry β, (reg.map Prod.fst).Nodup → (M, es) ∈ reg →
      bucketGet reg M = es := by
  intro reg
  induction reg with
  | nil => intro _ h; simp at h
  | cons b rest ih =>
    intro hnodup hmem
    obtain ⟨m, es2⟩ := b
    rw [List.map_cons, List.nodup_cons] at hnodup
    rcases List.mem_cons.mp hmem with h1 | h2
    · injection h1 with hM hes
      subst hM
      subst hes
      simp [bucketGet]
    · have hMk : M ∈ rest.map Prod.fst := List.mem_map.mpr ⟨(M, es), h2, rfl⟩
      have hne : ¬m = M := fun hc => hnodup.1 (hc ▸ hMk)
      have hm2 : (m == M) = false := by simpa using hne
      simp only [bucketGet, hm2, Bool.false_eq_true, if_false]
      exact ih hnodup.2 h2

/-- An absent key has the empty bucket. -/
theorem bucketGet_not_mem {β : Type} (M : Str) :
    ∀ reg : Registry β, M ∉ reg.map Prod.fst → bucketGet reg M = [] := by
  intro reg
  induction reg with
  | nil => intro _; rfl
  | cons b rest ih =>
    intro h
    obtain ⟨m, es⟩ := b
    simp only [List.map_cons, List.mem_cons, not_or] at h
    have hm2 : (m == M) = false := by simpa using fun hc => h.1 hc.symm
    simp only [bucketGet, hm2, Bool.false_eq_true, if_false]
    exact ih h.2

/-- With distinct bucket keys, `bucketGet` is invariant under permutation of
the bucket list. -/
theorem bucketGet_perm {β : Type} {reg reg2 : Registry β}
    (h : List.Perm reg reg2) (hnodup : (reg.map Prod.fst).Nodup) (M : Str) :
    bucketGet reg M = bucketGet reg2 M := by
  by_cases hmem : M ∈ reg.map Prod.fst
  · have h1 := bucketGet_mem M reg hmem
    have h2 : (M, bucketGet reg M) ∈ reg2 := h.mem_iff.mp h1
    have hnodup2 : (reg2.map Prod.fst).Nodup := ((h.map Prod.fst).nodup_iff).mp hnodup
    exact (bucketGet_eq_of_mem M _ reg2 hnodup2 h2).symm
  · have hmem2 : M ∉ reg2.map Prod.fst := fun hc => hmem ((h.map Prod.fst).mem_iff.mpr hc)
    rw [bucketGet_not_mem M reg hmem, bucketGet_not_mem M reg2 hmem2]

/-- C1: matching against the registry view (`get_expectations` of the
method-indexed bucket map built by `add_expectation`, under any bucket
order of the underlying `HashMap`) returns exactly the first expectation,
in registration order, that satisfies the request.  In particular, when two
or more expectations with the request's method are satisfied by the
request, the one registered first is returned: within a bucket registration
order is preserved by add, and `find` returns the first satisfying
expectation in that order. -/
theorem c1_registration_order {β : Type} (es : List (MockExpectation β))
    (r : ReqDescriptor) (reg' : Registry β) (hperm : List.Perm reg' (addAll es)) :
    find_matching_expectation (get_expectations reg') r =
      find_matching_expectation es r := by
  have hinv0 : RegistryInv (addAll es) := registryInv_addAll es
  have hinv' : RegistryInv reg' := registryInv_perm hperm.symm hinv0
  have hp : ∀ e : MockExpectation β, satisfies e r = true → (e.method == r.method) = true :=
    fun e h => satisfies_method e r h
  rw [find_eq_find?, find_eq_find?,
    find?_filter_method (fun e => satisfies e r) r.method hp (get_expectations reg'),
    flat_filter_eq_bucket r.method reg' hinv',
    bucketGet_perm hperm hinv'.2 r.method]
  have haddAll : bucketGet (addAll es) r.method =
      es.filter fun e => e.method == r.method := by
    have h := bucketGet_addAll r.method es ([] : Registry β)
    simpa [addAll, bucketGet] using h
  rw [haddAll, ← find?_filter_method (fun e => satisfies e r) r.method hp es]

/-- C1 witness: two expectations for `GET /a` both match the request; the
registry view returns the one registered first. -/
theorem c1_registration_order_witness :
    find_matching_expectation
      (get_expectations (addAll [expFix "1".toList none none, expFix "2".toList none none]))
      reqFix = some (expFix "1".toList none none) := by
  have h := c1_registration_order [expFix "1".toList none none, expFix "2".toList none none]
    reqFix (addAll [expFix "1".toList none none, expFix "2".toList none none])
    (List.Perm.refl _)
  exact h.trans (by decide)

end MimicRs
